import Mathlib

/-!
Verification of the map-reduce paper-summarizer core
(`llm.py`, `app.py`, `chat_with_paper/lambda_function.py`,
`research-paper-summarizer/lambda_function.py`).

Python strings are embedded as `List Char`; Python `str.split()`,
`" ".join`, slicing and `dict` state are given explicit executable
models, and the handlers become pure state-transition functions.
-/

/-- Python strings are modelled as lists of characters. -/
abbrev Str := List Char

/-- Whitespace test used by Python `str.split()` with no separator. -/
def isSpace (c : Char) : Bool := c.isWhitespace

/-- Helper for `pySplit`: `acc` is the word currently being read, in order.
Mirrors the single left-to-right scan Python's `str.split()` performs:
whitespace closes the current word (if any); other characters extend it. -/
def pySplitAux : Str → Str → List Str
  | [], acc => if acc = [] then [] else [acc]
  | c :: s, acc =>
    if isSpace c then (if acc = [] then [] else [acc]) ++ pySplitAux s []
    else pySplitAux s (acc ++ [c])

/-- Python `text.split()`: whitespace-delimited words, empties dropped. -/
def pySplit (s : Str) : List Str := pySplitAux s []

/-- Python `sep.join(xs)`. -/
def pyJoin (sep : Str) : List Str → Str
  | [] => []
  | [x] => x
  | x :: xs => x ++ sep ++ pyJoin sep xs

/-- Python `" ".join(xs)`, the join used by `_split_text`. -/
def joinSp (xs : List Str) : Str := pyJoin [' '] xs

/-- Python `s[-n:]` on a string: the last `n` characters, except that
`s[-0:]` is the whole string. -/
def pyTailSlice (n : Nat) (s : Str) : Str :=
  if n = 0 then s else s.drop (s.length - n)

/-- Loop state of `_split_text`: closed chunks, current word buffer `cur`
and the running length estimate `cur_len`. -/
structure SplitSt where
  chunks : List Str
  cur : List Str
  cur_len : Nat
  deriving DecidableEq

/-- One iteration of the `for w in words` loop of `_split_text`
(`llm.py`, lines 59-68). -/
def splitStep (max_chars overlap : Nat) (st : SplitSt) (w : Str) : SplitSt :=
  let lw := w.length + 1
  let st1 :=
    if max_chars < st.cur_len + lw then
      let chunk := joinSp st.cur
      let tail := pyTailSlice overlap chunk
      { chunks := st.chunks ++ [chunk], cur := [tail], cur_len := tail.length }
    else st
  { st1 with cur := st1.cur ++ [w], cur_len := st1.cur_len + lw }

/-- `_split_text(text, max_chars, overlap)` from `llm.py`, lines 51-71. -/
def splitText (text : Str) (max_chars : Nat) (overlap : Nat) : List Str :=
  if text.length ≤ max_chars then [text]
  else
    let words := pySplit text
    let st := words.foldl (splitStep max_chars overlap) ⟨[], [], 0⟩
    if st.cur = [] then st.chunks else st.chunks ++ [joinSp st.cur]

/-- A word as produced by `str.split()`: nonempty and whitespace-free. -/
def GoodWord (w : Str) : Prop := w ≠ [] ∧ ∀ c ∈ w, isSpace c = false

/-- Strip from each chunk the prefix seeded from the tail of the previous
chunk (`tail = " ".join(cur)[-overlap:]`), and concatenate what remains.
First argument is the preceding chunk. -/
def stripSeeds (ov : Nat) : Str → List Str → Str
  | _, [] => []
  | prev, c :: cs => c.drop (pyTailSlice ov prev).length ++ stripSeeds ov c cs

/-- Re-join a chunk list in order, removing from every chunk but the first
the seeded overlap prefix. -/
def reconstruct (ov : Nat) : List Str → Str
  | [] => []
  | c :: cs => c ++ stripSeeds ov c cs

-- ### Basic lemmas on `pySplit` and `joinSp`

theorem pySplitAux_space (xs ys : Str) (acc : Str) :
    pySplitAux (xs ++ ' ' :: ys) acc = pySplitAux xs acc ++ pySplitAux ys [] := by
  induction xs generalizing acc with
  | nil =>
    have hsp : isSpace ' ' = true := by decide
    by_cases h : acc = [] <;>
      simp [pySplitAux, hsp, h]
  | cons c xs ih =>
    by_cases h : isSpace c <;>
      simp [pySplitAux, h, ih, List.append_assoc]

theorem pySplit_append_space (xs ys : Str) :
    pySplit (xs ++ ' ' :: ys) = pySplit xs ++ pySplit ys :=
  pySplitAux_space xs ys []

theorem pySplitAux_nonspace (w : Str) (acc : Str)
    (hw : ∀ c ∈ w, isSpace c = false) :
    pySplitAux w acc = if acc ++ w = [] then [] else [acc ++ w] := by
  induction w generalizing acc with
  | nil => simp [pySplitAux]
  | cons c cs ih =>
    have hc : isSpace c = false := hw c (List.mem_cons_self c cs)
    have hcs : ∀ x ∈ cs, isSpace x = false := fun x hx => hw x (List.mem_cons_of_mem c hx)
    simp only [pySplitAux, hc, Bool.false_eq_true, if_false]
    rw [ih (acc ++ [c]) hcs]
    simp

theorem pySplit_goodWord (w : Str) (hw : GoodWord w) : pySplit w = [w] := by
  unfold pySplit
  rw [pySplitAux_nonspace w [] hw.2]
  simp [hw.1]

/-- `" ".join` of a list starting with a fixed element. -/
theorem joinSp_cons (x : Str) (xs : List Str) :
    joinSp (x :: xs) = x ++ (if xs = [] then [] else ' ' :: joinSp xs) := by
  cases xs with
  | nil => simp [joinSp, pyJoin]
  | cons y ys => simp [joinSp, pyJoin]

theorem joinSp_append_single (xs : List Str) (w : Str) (h : xs ≠ []) :
    joinSp (xs ++ [w]) = joinSp xs ++ ' ' :: w := by
  induction xs with
  | nil => exact absurd rfl h
  | cons x xs ih =>
    cases xs with
    | nil => simp [joinSp, pyJoin]
    | cons y ys =>
      have := ih (by simp)
      simp only [List.cons_append, joinSp, pyJoin] at *
      simp [this]

theorem pySplit_joinSp (ws : List Str) (h : ∀ w ∈ ws, GoodWord w) :
    pySplit (joinSp ws) = ws := by
  induction ws with
  | nil => simp [joinSp, pyJoin, pySplit, pySplitAux]
  | cons w ws ih =>
    cases ws with
    | nil => exact pySplit_goodWord w (h w (by simp))
    | cons y ys =>
      have hjw : joinSp (w :: y :: ys) = w ++ ' ' :: joinSp (y :: ys) := by
        simp [joinSp, pyJoin]
      rw [hjw, pySplit_append_space, pySplit_goodWord w (h w (by simp)),
        ih (fun x hx => h x (List.mem_cons_of_mem w hx))]
      rfl

theorem pySplit_goodWords (s : Str) : ∀ w ∈ pySplit s, GoodWord w := by
  have haux : ∀ (t acc : Str), (∀ c ∈ acc, isSpace c = false) →
      ∀ w ∈ pySplitAux t acc, GoodWord w := by
    intro t
    induction t with
    | nil =>
      intro acc hacc w hw
      simp only [pySplitAux] at hw
      by_cases h : acc = [] <;> simp [h] at hw
      exact hw ▸ ⟨h, hacc⟩
    | cons c cs ih =>
      intro acc hacc w hw
      simp only [pySplitAux] at hw
      by_cases hc : isSpace c
      · rw [hc] at hw
        simp only [if_true, List.mem_append] at hw
        rcases hw with hw | hw
        · by_cases h : acc = [] <;> simp [h] at hw
          exact hw ▸ ⟨h, hacc⟩
        · exact ih [] (by simp) w hw
      · rw [eq_false_of_ne_true hc] at hw
        simp only [Bool.false_eq_true, if_false] at hw
        refine ih (acc ++ [c]) ?_ w hw
        intro x hx
        rcases List.mem_append.1 hx with h | h
        · exact hacc x h
        · simp only [List.mem_singleton] at h
          exact h ▸ eq_false_of_ne_true hc
  exact haux s [] (by simp)

-- ### Reconstruction of the original word sequence from the chunks

/-- Last element of a list, with a default: the previously closed chunk. -/
def lastD : List Str → Str → Str
  | [], d => d
  | a :: l, _ => lastD l a

theorem lastD_concat (l : List Str) (c d : Str) : lastD (l ++ [c]) d = c := by
  induction l generalizing d with
  | nil => rfl
  | cons a l ih => exact ih a

theorem stripSeeds_append (ov : Nat) (prev : Str) (cs : List Str) (c : Str) :
    stripSeeds ov prev (cs ++ [c]) =
      stripSeeds ov prev cs ++ c.drop (pyTailSlice ov (lastD cs prev)).length := by
  induction cs generalizing prev with
  | nil => simp [stripSeeds, lastD]
  | cons a cs ih => simp [stripSeeds, ih a, List.append_assoc, lastD]

theorem reconstruct_append (ov : Nat) (cs : List Str) (c : Str) (h : cs ≠ []) :
    reconstruct ov (cs ++ [c]) =
      reconstruct ov cs ++ c.drop (pyTailSlice ov (lastD cs [])).length := by
  cases cs with
  | nil => exact absurd rfl h
  | cons a cs =>
    simp [reconstruct, stripSeeds_append, List.append_assoc, lastD]

theorem length_le_joinSp_cons (x : Str) (ws : List Str) :
    x.length ≤ (joinSp (x :: ws)).length := by
  rw [joinSp_cons]
  simp

theorem drop_append_of_le (n : Nat) (l1 l2 : Str) (h : n ≤ l1.length) :
    (l1 ++ l2).drop n = l1.drop n ++ l2 := by
  rw [List.drop_append_eq_append_drop, Nat.sub_eq_zero_of_le h, List.drop]

/-- The seeding discipline of `_split_text`: once a chunk has been closed,
the current buffer starts with the `overlap`-tail of the last closed chunk. -/
def SeedOK (ov : Nat) (st : SplitSt) : Prop :=
  st.chunks = [] ∨ ∃ ws, st.cur = pyTailSlice ov (lastD st.chunks []) :: ws

/-- Reconstruction of the text seen so far, treating the current buffer as a
final (virtual) chunk. -/
def reconVirt (ov : Nat) (st : SplitSt) : Str :=
  reconstruct ov (st.chunks ++ [joinSp st.cur])

theorem reconVirt_step (max_chars ov : Nat) (st : SplitSt) (done : List Str) (w : Str)
    (hgw : GoodWord w)
    (hA : pySplit (reconVirt ov st) = done)
    (hB : SeedOK ov st) :
    pySplit (reconVirt ov (splitStep max_chars ov st w)) = done ++ [w] ∧
      SeedOK ov (splitStep max_chars ov st w) := by
  by_cases hclose : max_chars < st.cur_len + (w.length + 1)
  · -- the chunk is closed; the buffer restarts from the overlap tail plus w
    have hstep : splitStep max_chars ov st w =
        ⟨st.chunks ++ [joinSp st.cur], [pyTailSlice ov (joinSp st.cur), w],
          (pyTailSlice ov (joinSp st.cur)).length + (w.length + 1)⟩ := by
      simp [splitStep, hclose]
    rw [hstep]
    constructor
    · show pySplit (reconstruct ov ((st.chunks ++ [joinSp st.cur]) ++
        [joinSp [pyTailSlice ov (joinSp st.cur), w]])) = done ++ [w]
      have hjtw : joinSp [pyTailSlice ov (joinSp st.cur), w] =
          pyTailSlice ov (joinSp st.cur) ++ ' ' :: w := by
        simp [joinSp, pyJoin]
      rw [reconstruct_append ov _ _ (by simp), lastD_concat, hjtw, List.drop_left]
      rw [pySplit_append_space]
      have hR : pySplit (reconstruct ov (st.chunks ++ [joinSp st.cur])) = done := hA
      rw [hR, pySplit_goodWord w hgw]
    · exact Or.inr ⟨[w], by rw [lastD_concat]⟩
  · -- no close: the word is packed onto the current buffer
    have hstep : splitStep max_chars ov st w =
        ⟨st.chunks, st.cur ++ [w], st.cur_len + (w.length + 1)⟩ := by
      simp [splitStep, hclose]
    rw [hstep]
    by_cases hch : st.chunks = []
    · -- no chunk closed yet: the virtual chunk is the whole text so far
      constructor
      · show pySplit (reconstruct ov (st.chunks ++ [joinSp (st.cur ++ [w])])) = done ++ [w]
        rw [hch, List.nil_append]
        have hAv : pySplit (joinSp st.cur) = done := by
          have h0 : reconVirt ov st = joinSp st.cur := by
            rw [reconVirt, hch, List.nil_append]
            simp [reconstruct, stripSeeds]
          rw [← h0]
          exact hA
        by_cases hce : st.cur = []
        · rw [hce]
          have hdone : done = [] := by
            rw [← hAv, hce]
            rfl
          rw [hdone]
          have hj : joinSp ([] ++ [w]) = w := by
            simp [joinSp, pyJoin]
          rw [hj]
          simp [reconstruct, stripSeeds, pySplit_goodWord w hgw]
        · rw [joinSp_append_single st.cur w hce]
          simp only [reconstruct, stripSeeds, List.append_nil]
          rw [pySplit_append_space, hAv, pySplit_goodWord w hgw]
      · exact Or.inl hch
    · -- a chunk exists: the buffer begins with its seeded tail
      obtain ⟨ws0, hcur⟩ := hB.resolve_left hch
      have hcne : st.cur ≠ [] := by
        rw [hcur]
        simp
      have hlen : (pyTailSlice ov (lastD st.chunks [])).length ≤ (joinSp st.cur).length := by
        rw [hcur]
        exact length_le_joinSp_cons _ _
      constructor
      · show pySplit (reconstruct ov (st.chunks ++ [joinSp (st.cur ++ [w])])) = done ++ [w]
        rw [reconstruct_append ov _ _ hch, joinSp_append_single st.cur w hcne,
          drop_append_of_le _ _ _ hlen, ← List.append_assoc, pySplit_append_space]
        have hR : pySplit (reconstruct ov st.chunks ++
            (joinSp st.cur).drop (pyTailSlice ov (lastD st.chunks [])).length) = done := by
          rw [← reconstruct_append ov _ _ hch]
          exact hA
        rw [hR, pySplit_goodWord w hgw]
      · exact Or.inr ⟨ws0 ++ [w], by rw [hcur, List.cons_append]⟩

theorem reconVirt_foldl (max_chars ov : Nat) (ws : List Str) :
    ∀ (st : SplitSt) (done : List Str),
      (∀ w ∈ ws, GoodWord w) →
      pySplit (reconVirt ov st) = done →
      SeedOK ov st →
      pySplit (reconVirt ov (ws.foldl (splitStep max_chars ov) st)) = done ++ ws ∧
        SeedOK ov (ws.foldl (splitStep max_chars ov) st) := by
  induction ws with
  | nil =>
    intro st done hg hA hB
    simpa using And.intro hA hB
  | cons w ws ih =>
    intro st done hg hA hB
    have hgw : GoodWord w := hg w (by simp)
    have hstep := reconVirt_step max_chars ov st done w hgw hA hB
    rw [List.foldl_cons]
    have := ih (splitStep max_chars ov st w) (done ++ [w])
      (fun x hx => hg x (List.mem_cons_of_mem w hx)) hstep.1 hstep.2
    simpa [List.append_assoc] using this

theorem splitStep_cur_ne (max_chars ov : Nat) (st : SplitSt) (w : Str) :
    (splitStep max_chars ov st w).cur ≠ [] := by
  unfold splitStep
  by_cases h : max_chars < st.cur_len + (w.length + 1) <;> simp [h]

theorem foldl_splitStep_cur_ne (max_chars ov : Nat) :
    ∀ (ws : List Str) (st : SplitSt), st.cur ≠ [] ∨ ws ≠ [] →
      (ws.foldl (splitStep max_chars ov) st).cur ≠ [] := by
  intro ws
  induction ws with
  | nil =>
    intro st h
    rcases h with h | h
    · exact h
    · exact absurd rfl h
  | cons w ws ih =>
    intro st _
    rw [List.foldl_cons]
    exact ih _ (Or.inl (splitStep_cur_ne max_chars ov st w))

/-- Re-joining the chunks of `_split_text` after stripping the seeded
overlap prefixes yields a text with exactly the original word sequence. -/
theorem splitText_reconstruct (text : Str) (max_chars ov : Nat) :
    pySplit (reconstruct ov (splitText text max_chars ov)) = pySplit text := by
  by_cases hlen : text.length ≤ max_chars
  · simp [splitText, hlen, reconstruct, stripSeeds]
  · rw [splitText, if_neg hlen]
    cases hws : pySplit text with
    | nil =>
      simp [hws, reconstruct, pySplit, pySplitAux]
    | cons w ws =>
      have hgood : ∀ x ∈ pySplit text, GoodWord x := pySplit_goodWords text
      have hinit : pySplit (reconVirt ov (⟨[], [], 0⟩ : SplitSt)) = [] := by
        simp [reconVirt, reconstruct, stripSeeds, joinSp, pyJoin, pySplit, pySplitAux]
      have hfold := reconVirt_foldl max_chars ov (w :: ws) ⟨[], [], 0⟩ []
        (by rw [← hws]; exact hgood) hinit (Or.inl rfl)
      have hcur : ((w :: ws).foldl (splitStep max_chars ov) ⟨[], [], 0⟩).cur ≠ [] :=
        foldl_splitStep_cur_ne max_chars ov (w :: ws) ⟨[], [], 0⟩ (Or.inr (by simp))
      show pySplit (reconstruct ov
        (if ((w :: ws).foldl (splitStep max_chars ov) ⟨[], [], 0⟩).cur = []
         then ((w :: ws).foldl (splitStep max_chars ov) ⟨[], [], 0⟩).chunks
         else ((w :: ws).foldl (splitStep max_chars ov) ⟨[], [], 0⟩).chunks ++
           [joinSp ((w :: ws).foldl (splitStep max_chars ov) ⟨[], [], 0⟩).cur])) = w :: ws
      rw [if_neg hcur]
      have := hfold.1
      rw [reconVirt] at this
      simpa using this

/-- `_split_text` on a long text, with the loop written out. -/
theorem splitText_eq_of_long (text : Str) (maxc ov : Nat) (h : ¬ text.length ≤ maxc) :
    splitText text maxc ov =
      (if ((pySplit text).foldl (splitStep maxc ov) ⟨[], [], 0⟩).cur = []
       then ((pySplit text).foldl (splitStep maxc ov) ⟨[], [], 0⟩).chunks
       else ((pySplit text).foldl (splitStep maxc ov) ⟨[], [], 0⟩).chunks ++
         [joinSp ((pySplit text).foldl (splitStep maxc ov) ⟨[], [], 0⟩).cur]) := by
  rw [splitText, if_neg h]

/-- C1: for every text longer than the maximum chunk size, re-joining the
chunks produced by `_split_text` in order, after removing from each chunk
other than the first the overlap prefix that was seeded from the tail of the
previously assembled chunk, yields exactly the original whitespace-delimited
word sequence of the input text. -/
theorem C1_rejoin_chunks_word_sequence (text : Str) (max_chars ov : Nat)
    (hlong : max_chars < text.length) :
    pySplit (reconstruct ov (splitText text max_chars ov)) = pySplit text :=
  splitText_reconstruct text max_chars ov

theorem C1_rejoin_chunks_word_sequence_witness :
    5 < ("aaa bb cc".toList).length ∧
      pySplit (reconstruct 2 (splitText "aaa bb cc".toList 5 2)) =
        pySplit "aaa bb cc".toList :=
  ⟨by decide, C1_rejoin_chunks_word_sequence "aaa bb cc".toList 5 2 (by decide)⟩

-- ### Chunk length bounds

theorem pyTailSlice_length_le (n : Nat) (s : Str) (h : 0 < n) :
    (pyTailSlice n s).length ≤ n := by
  unfold pyTailSlice
  rw [if_neg (Nat.pos_iff_ne_zero.1 h), List.length_drop]
  omega

theorem joinSp_append_single_length (xs : List Str) (w : Str) :
    (joinSp (xs ++ [w])).length =
      if xs = [] then w.length else (joinSp xs).length + 1 + w.length := by
  by_cases h : xs = []
  · subst h
    simp [joinSp, pyJoin]
  · rw [joinSp_append_single xs w h, if_neg h]
    simp [List.length_append]
    omega

/-- Invariant giving the real bound on chunk sizes: `cur_len` dominates the
joined buffer length, and both stay under `max max_chars (overlap + 1 + W)`
where `W` bounds the word lengths. -/
def BoundInv (maxc ov W : Nat) (st : SplitSt) : Prop :=
  (joinSp st.cur).length ≤ st.cur_len ∧
  st.cur_len ≤ max maxc (ov + 1 + W) ∧
  ∀ c ∈ st.chunks, c.length ≤ max maxc (ov + 1 + W)

theorem boundInv_step (maxc ov W : Nat) (hov : 0 < ov) (st : SplitSt) (w : Str)
    (hw : w.length ≤ W) (h : BoundInv maxc ov W st) :
    BoundInv maxc ov W (splitStep maxc ov st w) := by
  obtain ⟨h1, h2, h3⟩ := h
  by_cases hclose : maxc < st.cur_len + (w.length + 1)
  · have hstep : splitStep maxc ov st w =
        ⟨st.chunks ++ [joinSp st.cur], [pyTailSlice ov (joinSp st.cur), w],
          (pyTailSlice ov (joinSp st.cur)).length + (w.length + 1)⟩ := by
      simp [splitStep, hclose]
    rw [hstep]
    have htl : (pyTailSlice ov (joinSp st.cur)).length ≤ ov :=
      pyTailSlice_length_le ov _ hov
    refine ⟨?_, ?_, ?_⟩
    · have hj : joinSp [pyTailSlice ov (joinSp st.cur), w] =
          pyTailSlice ov (joinSp st.cur) ++ ' ' :: w := by
        simp [joinSp, pyJoin]
      rw [hj]
      simp [List.length_append]
    · have : (pyTailSlice ov (joinSp st.cur)).length + (w.length + 1) ≤ ov + 1 + W := by
        omega
      exact le_trans this (le_max_right _ _)
    · intro c hc
      rcases List.mem_append.1 hc with hc | hc
      · exact h3 c hc
      · simp only [List.mem_singleton] at hc
        subst hc
        exact le_trans h1 h2
  · have hstep : splitStep maxc ov st w =
        ⟨st.chunks, st.cur ++ [w], st.cur_len + (w.length + 1)⟩ := by
      simp [splitStep, hclose]
    rw [hstep]
    push_neg at hclose
    refine ⟨?_, le_trans hclose (le_max_left _ _), h3⟩
    rw [joinSp_append_single_length]
    by_cases hce : st.cur = []
    · rw [if_pos hce]
      show w.length ≤ st.cur_len + (w.length + 1)
      omega
    · rw [if_neg hce]
      show (joinSp st.cur).length + 1 + w.length ≤ st.cur_len + (w.length + 1)
      omega

theorem boundInv_foldl (maxc ov W : Nat) (hov : 0 < ov) :
    ∀ (ws : List Str) (st : SplitSt), (∀ w ∈ ws, w.length ≤ W) →
      BoundInv maxc ov W st → BoundInv maxc ov W (ws.foldl (splitStep maxc ov) st) := by
  intro ws
  induction ws with
  | nil => intro st _ h; exact h
  | cons w ws ih =>
    intro st hws h
    rw [List.foldl_cons]
    exact ih _ (fun x hx => hws x (List.mem_cons_of_mem w hx))
      (boundInv_step maxc ov W hov st w (hws w (by simp)) h)

/-- C5 (amended): with positive overlap at most `max_chars`, every chunk of
`_split_text` has length at most `max max_chars (overlap + 1 + W)` where `W`
bounds the word lengths of the text; the `max_chars` bound alone can be
exceeded by a seeded overlap tail followed by a single word. -/
theorem C5_chunk_length_bound (text : Str) (maxc ov W : Nat)
    (hov : 0 < ov) (hovm : ov ≤ maxc)
    (hW : ∀ w ∈ pySplit text, w.length ≤ W) :
    ∀ c ∈ splitText text maxc ov, c.length ≤ max maxc (ov + 1 + W) := by
  intro c hc
  by_cases hlen : text.length ≤ maxc
  · rw [splitText, if_pos hlen] at hc
    simp only [List.mem_singleton] at hc
    subst hc
    exact le_trans hlen (le_max_left _ _)
  · rw [splitText_eq_of_long _ _ _ hlen] at hc
    have hfold := boundInv_foldl maxc ov W hov (pySplit text) ⟨[], [], 0⟩ hW
      ⟨by simp [joinSp, pyJoin], by simp, by simp⟩
    obtain ⟨h1, h2, h3⟩ := hfold
    by_cases hcur : ((pySplit text).foldl (splitStep maxc ov) ⟨[], [], 0⟩).cur = []
    · rw [if_pos hcur] at hc
      exact h3 c hc
    · rw [if_neg hcur] at hc
      rcases List.mem_append.1 hc with hc | hc
      · exact h3 c hc
      · simp only [List.mem_singleton] at hc
        subst hc
        exact le_trans h1 h2

theorem C5_chunk_length_bound_witness :
    ((0 : Nat) < 2 ∧ 2 ≤ 5 ∧ ∀ w ∈ pySplit "aaa bb".toList, w.length ≤ 3) ∧
      ∀ c ∈ splitText "aaa bb".toList 5 2, c.length ≤ max 5 (2 + 1 + 3) :=
  ⟨⟨by decide, by decide, by decide⟩,
    C5_chunk_length_bound "aaa bb".toList 5 2 3 (by decide) (by decide) (by decide)⟩

/-- C5 as literally stated is false: with `max_chars = 10` and
`overlap = 8 ≤ 10`, `_split_text` produces the chunk `"aaaaa bbbbb"` of
length 11, exceeding the bound although the overlap text alone does not. -/
theorem C5_counterexample :
    (8 : Nat) ≤ 10 ∧
      ¬ (∀ c ∈ splitText "aaaaa bbbbb ccccc ddddd".toList 10 8, c.length ≤ 10) :=
  ⟨by decide, by decide⟩

-- ### Nonemptiness of chunks

/-- Once a first word has been packed, the buffer and all closed chunks stay
nonempty. -/
def NonEmptyInv (st : SplitSt) : Prop :=
  st.cur ≠ [] ∧ joinSp st.cur ≠ [] ∧ ∀ c ∈ st.chunks, c ≠ []

theorem nonEmptyInv_step (maxc ov : Nat) (st : SplitSt) (w : Str)
    (h : NonEmptyInv st) : NonEmptyInv (splitStep maxc ov st w) := by
  obtain ⟨h1, h2, h3⟩ := h
  by_cases hclose : maxc < st.cur_len + (w.length + 1)
  · have hstep : splitStep maxc ov st w =
        ⟨st.chunks ++ [joinSp st.cur], [pyTailSlice ov (joinSp st.cur), w],
          (pyTailSlice ov (joinSp st.cur)).length + (w.length + 1)⟩ := by
      simp [splitStep, hclose]
    rw [hstep]
    refine ⟨by simp, ?_, ?_⟩
    · have hj : joinSp [pyTailSlice ov (joinSp st.cur), w] =
          pyTailSlice ov (joinSp st.cur) ++ ' ' :: w := by
        simp [joinSp, pyJoin]
      show joinSp [pyTailSlice ov (joinSp st.cur), w] ≠ []
      rw [hj]
      simp
    · intro c hc
      rcases List.mem_append.1 hc with hc | hc
      · exact h3 c hc
      · simp only [List.mem_singleton] at hc
        subst hc
        exact h2
  · have hstep : splitStep maxc ov st w =
        ⟨st.chunks, st.cur ++ [w], st.cur_len + (w.length + 1)⟩ := by
      simp [splitStep, hclose]
    rw [hstep]
    refine ⟨by simp, ?_, h3⟩
    show joinSp (st.cur ++ [w]) ≠ []
    rw [joinSp_append_single st.cur w h1]
    simp

theorem nonEmptyInv_foldl (maxc ov : Nat) :
    ∀ (ws : List Str) (st : SplitSt), NonEmptyInv st →
      NonEmptyInv (ws.foldl (splitStep maxc ov) st) := by
  intro ws
  induction ws with
  | nil => intro st h; exact h
  | cons w ws ih =>
    intro st h
    rw [List.foldl_cons]
    exact ih _ (nonEmptyInv_step maxc ov st w h)

theorem splitText_chunks_nonempty (text : Str) (maxc ov : Nat)
    (hfw : ∀ w1 ∈ (pySplit text).take 1, w1.length < maxc)
    (htne : text ≠ []) :
    ∀ c ∈ splitText text maxc ov, c ≠ [] := by
  intro c hc
  by_cases hlen : text.length ≤ maxc
  · rw [splitText, if_pos hlen] at hc
    simp only [List.mem_singleton] at hc
    subst hc
    exact htne
  · rw [splitText_eq_of_long _ _ _ hlen] at hc
    cases hws : pySplit text with
    | nil =>
      rw [hws] at hc
      simp at hc
    | cons w1 ws1 =>
      have hfw1 : w1.length < maxc := hfw w1 (by rw [hws]; simp)
      have hg1 : GoodWord w1 := pySplit_goodWords text w1 (by rw [hws]; simp)
      have hstep1 : splitStep maxc ov ⟨[], [], 0⟩ w1 = ⟨[], [w1], w1.length + 1⟩ := by
        have hno : ¬ maxc < w1.length + 1 := by omega
        simp [splitStep, hno]
      have hInv1 : NonEmptyInv ⟨[], [w1], w1.length + 1⟩ := by
        refine ⟨by simp, ?_, by simp⟩
        show joinSp [w1] ≠ []
        simpa [joinSp, pyJoin] using hg1.1
      have hfold := nonEmptyInv_foldl maxc ov ws1 ⟨[], [w1], w1.length + 1⟩ hInv1
      rw [hws, List.foldl_cons, hstep1] at hc
      rw [if_neg hfold.1] at hc
      rcases List.mem_append.1 hc with hc | hc
      · exact hfold.2.2 c hc
      · simp only [List.mem_singleton] at hc
        subst hc
        exact hfold.2.1

/-- C6 (amended): provided the first word of the text is shorter than
`max_chars`, no chunk returned by `_split_text` is empty unless the input
text itself is empty; and the chunks appear in document order, in the sense
that stripping the seeded overlap prefixes and re-joining the chunks in the
returned order reproduces the document's word sequence. -/
theorem C6_chunks_nonempty_ordered (text : Str) (maxc ov : Nat)
    (htne : text ≠ [])
    (hfw : ∀ w1 ∈ (pySplit text).take 1, w1.length < maxc) :
    (∀ c ∈ splitText text maxc ov, c ≠ []) ∧
      pySplit (reconstruct ov (splitText text maxc ov)) = pySplit text :=
  ⟨splitText_chunks_nonempty text maxc ov hfw htne,
    splitText_reconstruct text maxc ov⟩

theorem C6_chunks_nonempty_ordered_witness :
    ("aaa bb".toList ≠ ([] : Str) ∧
      ∀ w1 ∈ (pySplit "aaa bb".toList).take 1, w1.length < 5) ∧
      ((∀ c ∈ splitText "aaa bb".toList 5 2, c ≠ []) ∧
        pySplit (reconstruct 2 (splitText "aaa bb".toList 5 2)) =
          pySplit "aaa bb".toList) :=
  ⟨⟨by decide, by decide⟩,
    C6_chunks_nonempty_ordered "aaa bb".toList 5 2 (by decide) (by decide)⟩

/-- A single word longer than the bound forces an empty first chunk. -/
theorem splitText_long_word_empty_chunk (w : Str) (maxc ov : Nat)
    (hg : GoodWord w) (hlong : maxc < w.length) :
    [] ∈ splitText w maxc ov := by
  have hlen : ¬ w.length ≤ maxc := by omega
  have hws : pySplit w = [w] := pySplit_goodWord w hg
  rw [splitText_eq_of_long _ _ _ hlen, hws]
  have hcond : maxc < w.length + 1 := by omega
  have hstF : List.foldl (splitStep maxc ov) ⟨[], [], 0⟩ [w] =
      ⟨[joinSp []], [pyTailSlice ov (joinSp []), w],
        (pyTailSlice ov (joinSp [])).length + (w.length + 1)⟩ := by
    rw [List.foldl_cons, List.foldl_nil]
    simp [splitStep, hcond]
  rw [hstF]
  simp [joinSp, pyJoin]

/-- C6 as literally stated is false: on a nonempty text consisting of one
word of 20001 characters, `_split_text` with its default configuration
(max_chars 20000, overlap 800) returns an empty first chunk. -/
theorem C6_counterexample :
    [] ∈ splitText (List.replicate 20001 'a') 20000 800 ∧
      List.replicate 20001 'a' ≠ ([] : Str) := by
  have hne : List.replicate 20001 'a' ≠ ([] : Str) :=
    List.length_pos.mp (by rw [List.length_replicate]; omega)
  constructor
  · refine splitText_long_word_empty_chunk _ _ _ ⟨hne, ?_⟩ ?_
    · intro c hc
      rw [List.eq_of_mem_replicate hc]
      decide
    · rw [List.length_replicate]
      omega
  · exact hne

-- ### The LLM oracle and `summarize_map_reduce`

/-- One entry of a Gemini `contents` list: a role plus the text of its
single part (`{"role": r, "parts": [{"text": t}]}`). -/
structure Content where
  role : Str
  text : Str
  deriving DecidableEq

/-- Call counters for the external collaborators: `gcalls` counts
`_call_gemini` requests, `ecalls` counts `extract_text_from_url` calls. -/
structure World where
  gcalls : Nat
  ecalls : Nat
  deriving DecidableEq

/-- The LLM oracle: the outcome of a generation request may depend on the
call index and the request contents; `.error` models a raised exception. -/
def Oracle := Nat → List Content → Except Str Str

/-- An oracle that always answers. -/
def okOracle : Oracle := fun _ _ => .ok "ok".toList

/-- `_call_gemini(contents)` (`llm.py`, lines 34-48): one request to the
oracle; the call happens (and is counted) whether or not it raises. -/
def callGemini (orc : Oracle) (w : World) (contents : List Content) :
    Except Str Str × World :=
  (orc w.gcalls contents, { w with gcalls := w.gcalls + 1 })

def roleUser : Str := "user".toList
def roleModel : Str := "model".toList

/-- `CHUNK_SUMMARY_PROMPT` from `prompts.py`, split at its two holes. -/
def CHUNK_SUMMARY_PROMPT_pre : Str :=
  ("You are analyzing an academic paper. Summarize the following CHUNK in English.\nFocus on: problem statement, motivation, key ideas/methods, experiments, results, limitations.\nMatch the requested complexity level: ").toList

def CHUNK_SUMMARY_PROMPT_mid : Str :=
  (".\n- LOW  => explain in layman terms and concise bullet points.\n- MEDIUM => provide intuition and a bit of math/CS detail where helpful.\n- HIGH => advanced/technical explanation for experts.\n\nReturn ONLY clean HTML using <h2>, <p>, and <ul><li> for structure.\nDo not include any extraneous text outside HTML.\n\nCHUNK:\n").toList

/-- `CHUNK_SUMMARY_PROMPT.format(level=level, chunk=chunk)`. -/
def chunkSummaryPrompt (level chunk : Str) : Str :=
  CHUNK_SUMMARY_PROMPT_pre ++ level ++ CHUNK_SUMMARY_PROMPT_mid ++ chunk ++ "\n".toList

/-- `REDUCE_SUMMARY_PROMPT` from `prompts.py`, split at its two holes. -/
def REDUCE_SUMMARY_PROMPT_pre : Str :=
  ("Synthesize a cohesive paper summary from these PARTIAL chunk summaries.\nMaintain the ").toList

def REDUCE_SUMMARY_PROMPT_mid : Str :=
  (" complexity target.\nStructure with headings: <h2>TL;DR</h2>, <h2>Problem</h2>, <h2>Approach</h2>, <h2>Key Contributions</h2>, <h2>Results</h2>, <h2>Limitations</h2>, <h2>Notable Equations/Algorithms (if any)</h2>, <h2>Suggested Reading</h2>.\n\nReturn ONLY clean HTML using <h2>, <p>, and <ul><li> for structure.\nDo not include any extraneous text outside HTML.\n\nPARTIALS:\n").toList

/-- `REDUCE_SUMMARY_PROMPT.format(level=level, partials=pieces)`. -/
def reduceSummaryPrompt (level pieces : Str) : Str :=
  REDUCE_SUMMARY_PROMPT_pre ++ level ++ REDUCE_SUMMARY_PROMPT_mid ++ pieces ++ "\n".toList

/-- The `for i, chunk in enumerate(chunks, 1)` map loop of
`summarize_map_reduce` (`llm.py`, lines 81-88): one `_call_gemini` per
chunk; a raised error aborts the loop and propagates. -/
def mapStep (orc : Oracle) (level : Str) :
    List Str → List Str → World → Except Str (List Str) × World
  | [], acc, w => (.ok acc, w)
  | chunk :: rest, acc, w =>
    match callGemini orc w [⟨roleUser, chunkSummaryPrompt level chunk⟩] with
    | (.error e, w1) => (.error e, w1)
    | (.ok piece, w1) => mapStep orc level rest (acc ++ [piece]) w1

/-- `summarize_map_reduce(full_text, level)` from `llm.py`, lines 74-96:
chunk with the default parameters, summarize each chunk, then synthesize
with one reduce call. -/
def summarizeMapReduce (orc : Oracle) (full_text : Str) (level : Str) (w : World) :
    Except Str Str × World :=
  let chunks := splitText full_text 20000 800
  match mapStep orc level chunks [] w with
  | (.error e, w1) => (.error e, w1)
  | (.ok pieces, w1) =>
      callGemini orc w1 [⟨roleUser, reduceSummaryPrompt level (pyJoin ['\n', '\n'] pieces)⟩]

theorem mapStep_calls (orc : Oracle) (level : Str) :
    ∀ (chunks acc : List Str) (w : World) (ps : List Str) (w1 : World),
      mapStep orc level chunks acc w = (.ok ps, w1) →
      w1.gcalls = w.gcalls + chunks.length ∧ w1.ecalls = w.ecalls := by
  intro chunks
  induction chunks with
  | nil =>
    intro acc w ps w1 h
    simp only [mapStep, Prod.mk.injEq] at h
    rw [← h.2]
    simp
  | cons c cs ih =>
    intro acc w ps w1 h
    simp only [mapStep, callGemini] at h
    cases horc : orc w.gcalls [⟨roleUser, chunkSummaryPrompt level c⟩] with
    | error e =>
      rw [horc] at h
      simp at h
    | ok piece =>
      rw [horc] at h
      simp only at h
      have := ih (acc ++ [piece]) { w with gcalls := w.gcalls + 1 } ps w1 h
      simp only [List.length_cons] at *
      omega

/-- C2: a successful invocation of `summarize_map_reduce` performs exactly
(number of chunks produced by `_split_text`) + 1 oracle calls: one per
chunk in the map phase plus one reduce call. -/
theorem C2_oracle_call_count (orc : Oracle) (full_text level : Str) (w : World)
    (s : Str) (w1 : World)
    (h : summarizeMapReduce orc full_text level w = (.ok s, w1)) :
    w1.gcalls = w.gcalls + (splitText full_text 20000 800).length + 1 := by
  simp only [summarizeMapReduce] at h
  split at h
  · simp at h
  next ps w2 hm =>
    have hmap := mapStep_calls orc level (splitText full_text 20000 800) [] w ps w2 hm
    simp only [callGemini, Prod.mk.injEq] at h
    rw [← h.2]
    simp only
    omega

theorem C2_oracle_call_count_witness :
    (⟨2, 0⟩ : World).gcalls =
      (⟨0, 0⟩ : World).gcalls + (splitText "hi".toList 20000 800).length + 1 :=
  C2_oracle_call_count okOracle "hi".toList "LOW".toList ⟨0, 0⟩ "ok".toList ⟨2, 0⟩ rfl

-- ### C7: the 25,000-character scenario

theorem pySplit_replicate_space (n : Nat) :
    pySplit (List.replicate n ' ') = [] := by
  induction n with
  | zero => rfl
  | succ n ih =>
    rw [List.replicate_succ]
    show pySplitAux (' ' :: List.replicate n ' ') [] = []
    have hsp : isSpace ' ' = true := by decide
    simp only [pySplitAux, hsp, if_true]
    simpa using ih

/-- C7 as literally stated is false: a 25,000-character text that is all
whitespace yields zero chunks, not two. -/
theorem C7_counterexample :
    (List.replicate 25000 ' ' : Str).length = 25000 ∧
      (splitText (List.replicate 25000 ' ') 20000 800).length ≠ 2 := by
  have hlen : ¬ (List.replicate 25000 ' ' : Str).length ≤ 20000 := by
    rw [List.length_replicate]
    omega
  constructor
  · rw [List.length_replicate]
  · rw [splitText_eq_of_long _ _ _ hlen, pySplit_replicate_space, List.foldl_nil]
    simp

theorem joinSp_length (ws : List Str) (h : ws ≠ []) :
    (joinSp ws).length + 1 = (ws.map (fun w => w.length + 1)).sum := by
  induction ws with
  | nil => exact absurd rfl h
  | cons x xs ih =>
    cases xs with
    | nil => simp [joinSp, pyJoin]
    | cons y ys =>
      have hx : joinSp (x :: y :: ys) = x ++ ' ' :: joinSp (y :: ys) := by
        simp [joinSp, pyJoin]
      rw [hx]
      have := ih (by simp)
      simp only [List.map_cons, List.sum_cons, List.length_append, List.length_cons] at *
      omega

/-- Packing words of equal size never closes a chunk while the running
length stays within the bound. -/
theorem foldl_splitStep_replicate (maxc ov : Nat) (u : Str) :
    ∀ (m : Nat) (st : SplitSt), st.cur_len + m * (u.length + 1) ≤ maxc →
      List.foldl (splitStep maxc ov) st (List.replicate m u) =
        ⟨st.chunks, st.cur ++ List.replicate m u, st.cur_len + m * (u.length + 1)⟩ := by
  intro m
  induction m with
  | zero =>
    intro st _
    simp
  | succ m ih =>
    intro st h
    have hL : (u.length + 1) ≤ (m + 1) * (u.length + 1) :=
      Nat.le_mul_of_pos_left _ (Nat.succ_pos m)
    have hsm : (m + 1) * (u.length + 1) = m * (u.length + 1) + (u.length + 1) := by
      rw [Nat.succ_mul]
    have hno : ¬ maxc < st.cur_len + (u.length + 1) := by omega
    rw [List.replicate_succ, List.foldl_cons]
    have hstep : splitStep maxc ov st u =
        ⟨st.chunks, st.cur ++ [u], st.cur_len + (u.length + 1)⟩ := by
      simp [splitStep, hno]
    rw [hstep]
    have hrec := ih ⟨st.chunks, st.cur ++ [u], st.cur_len + (u.length + 1)⟩ (by
      show st.cur_len + (u.length + 1) + m * (u.length + 1) ≤ maxc
      omega)
    rw [hrec]
    have hcur : (st.cur ++ [u]) ++ List.replicate m u = st.cur ++ List.replicate (m + 1) u := by
      rw [List.append_assoc, List.replicate_succ]
      rfl
    have hlen2 : st.cur_len + (u.length + 1) + m * (u.length + 1) =
        st.cur_len + (m + 1) * (u.length + 1) := by omega
    show (⟨st.chunks, (st.cur ++ [u]) ++ List.replicate m u,
      st.cur_len + (u.length + 1) + m * (u.length + 1)⟩ : SplitSt) = _
    rw [hcur, hlen2, List.replicate_succ]

/-- The word list of the C7 scenario text: 4999 four-character words and
one five-character word, single-spaced, 25,000 characters in all. -/
def docWords : List Str :=
  List.replicate 4999 (List.replicate 4 'a') ++ [List.replicate 5 'b']

def doc25000 : Str := joinSp docWords


instance (w : Str) : Decidable (GoodWord w) := by
  unfold GoodWord
  infer_instance

theorem docWords_good : ∀ w ∈ docWords, GoodWord w := by
  intro w hw
  rcases List.mem_append.1 hw with h | h
  · rw [List.eq_of_mem_replicate h]
    decide
  · simp only [List.mem_singleton] at h
    rw [h]
    decide

theorem docWords_sum : (docWords.map (fun w => w.length + 1)).sum = 25001 := by
  unfold docWords
  simp only [List.map_append, List.map_replicate, List.sum_append, List.sum_replicate,
    List.map_cons, List.map_nil, List.sum_cons, List.sum_nil, List.length_replicate,
    smul_eq_mul]
  norm_num

theorem docWords_ne_nil : docWords ≠ [] := by
  apply List.length_pos.mp
  unfold docWords
  rw [List.length_append, List.length_replicate]
  omega

theorem doc25000_length : doc25000.length = 25000 := by
  have h := joinSp_length docWords docWords_ne_nil
  rw [docWords_sum] at h
  unfold doc25000
  omega

theorem c1_length :
    (joinSp (List.replicate 4000 (List.replicate 4 'a'))).length = 19999 := by
  have hne : List.replicate 4000 (List.replicate 4 'a') ≠ ([] : List Str) :=
    List.length_pos.mp (by rw [List.length_replicate]; omega)
  have h := joinSp_length _ hne
  simp only [List.map_replicate, List.length_replicate, List.sum_replicate,
    smul_eq_mul] at h
  omega

theorem t1_length :
    (pyTailSlice 800 (joinSp (List.replicate 4000 (List.replicate 4 'a')))).length = 800 := by
  unfold pyTailSlice
  rw [if_neg (show ¬ (800 : Nat) = 0 by omega), c1_length, List.length_drop, c1_length]

/-- `splitStep` when the running length would exceed the bound: close the
chunk and seed the new buffer. -/
theorem splitStep_close (maxc ov : Nat) (st : SplitSt) (w : Str)
    (h : maxc < st.cur_len + (w.length + 1)) :
    splitStep maxc ov st w =
      ⟨st.chunks ++ [joinSp st.cur], [pyTailSlice ov (joinSp st.cur), w],
        (pyTailSlice ov (joinSp st.cur)).length + (w.length + 1)⟩ := by
  simp [splitStep, h]

/-- `splitStep` when the word still fits. -/
theorem splitStep_pack (maxc ov : Nat) (st : SplitSt) (w : Str)
    (h : ¬ maxc < st.cur_len + (w.length + 1)) :
    splitStep maxc ov st w = ⟨st.chunks, st.cur ++ [w], st.cur_len + (w.length + 1)⟩ := by
  simp [splitStep, h]

theorem docWords_decomp :
    docWords = List.replicate 4000 (List.replicate 4 'a') ++
      List.replicate 4 'a' :: (List.replicate 998 (List.replicate 4 'a') ++
        [List.replicate 5 'b']) := by
  unfold docWords
  rw [show (4999 : Nat) = 4000 + 999 from rfl, List.replicate_add, List.append_assoc]
  congr 1

theorem splitText_doc25000_length : (splitText doc25000 20000 800).length = 2 := by
  have hlen : ¬ doc25000.length ≤ 20000 := by
    rw [doc25000_length]
    omega
  have hpys : pySplit doc25000 = docWords := pySplit_joinSp docWords docWords_good
  have hA : List.foldl (splitStep 20000 800) ⟨[], [], 0⟩
      (List.replicate 4000 (List.replicate 4 'a')) =
      ⟨[], List.replicate 4000 (List.replicate 4 'a'), 20000⟩ := by
    have h := foldl_splitStep_replicate 20000 800 (List.replicate 4 'a') 4000
      (⟨[], [], 0⟩ : SplitSt) (by norm_num [List.length_replicate])
    rw [h]
    congr 1
  have hcond1 : (20000 : Nat) <
      (⟨[], List.replicate 4000 (List.replicate 4 'a'), 20000⟩ : SplitSt).cur_len +
        ((List.replicate 4 'a' : Str).length + 1) := by
    show (20000 : Nat) < 20000 + ((List.replicate 4 'a' : Str).length + 1)
    norm_num [List.length_replicate]
  have hstep1 : splitStep 20000 800
      ⟨[], List.replicate 4000 (List.replicate 4 'a'), 20000⟩ (List.replicate 4 'a') =
      ⟨[joinSp (List.replicate 4000 (List.replicate 4 'a'))],
        [pyTailSlice 800 (joinSp (List.replicate 4000 (List.replicate 4 'a'))),
          List.replicate 4 'a'], 805⟩ := by
    rw [splitStep_close 20000 800 _ _ hcond1]
    simp only [t1_length, List.length_replicate, List.nil_append]
  have hC : List.foldl (splitStep 20000 800)
      ⟨[joinSp (List.replicate 4000 (List.replicate 4 'a'))],
        [pyTailSlice 800 (joinSp (List.replicate 4000 (List.replicate 4 'a'))),
          List.replicate 4 'a'], 805⟩
      (List.replicate 998 (List.replicate 4 'a')) =
      ⟨[joinSp (List.replicate 4000 (List.replicate 4 'a'))],
        [pyTailSlice 800 (joinSp (List.replicate 4000 (List.replicate 4 'a'))),
          List.replicate 4 'a'] ++ List.replicate 998 (List.replicate 4 'a'), 5795⟩ := by
    have h := foldl_splitStep_replicate 20000 800 (List.replicate 4 'a') 998
      (⟨[joinSp (List.replicate 4000 (List.replicate 4 'a'))],
        [pyTailSlice 800 (joinSp (List.replicate 4000 (List.replicate 4 'a'))),
          List.replicate 4 'a'], 805⟩ : SplitSt)
      (by
        show (805 : Nat) + 998 * ((List.replicate 4 'a' : Str).length + 1) ≤ 20000
        norm_num [List.length_replicate])
    rw [h]
    congr 1
  have hcond3 : ¬ (20000 : Nat) <
      (⟨[joinSp (List.replicate 4000 (List.replicate 4 'a'))],
        [pyTailSlice 800 (joinSp (List.replicate 4000 (List.replicate 4 'a'))),
          List.replicate 4 'a'] ++ List.replicate 998 (List.replicate 4 'a'),
            5795⟩ : SplitSt).cur_len + ((List.replicate 5 'b' : Str).length + 1) := by
    show ¬ (20000 : Nat) < 5795 + ((List.replicate 5 'b' : Str).length + 1)
    norm_num [List.length_replicate]
  have hstep2 : splitStep 20000 800
      ⟨[joinSp (List.replicate 4000 (List.replicate 4 'a'))],
        [pyTailSlice 800 (joinSp (List.replicate 4000 (List.replicate 4 'a'))),
          List.replicate 4 'a'] ++ List.replicate 998 (List.replicate 4 'a'), 5795⟩
      (List.replicate 5 'b') =
      ⟨[joinSp (List.replicate 4000 (List.replicate 4 'a'))],
        ([pyTailSlice 800 (joinSp (List.replicate 4000 (List.replicate 4 'a'))),
          List.replicate 4 'a'] ++ List.replicate 998 (List.replicate 4 'a')) ++
            [List.replicate 5 'b'], 5801⟩ := by
    rw [splitStep_pack 20000 800 _ _ hcond3]
    congr 1
  rw [splitText_eq_of_long _ _ _ hlen, hpys, docWords_decomp, List.foldl_append,
    List.foldl_cons, hA, hstep1, List.foldl_append, hC, List.foldl_cons,
    List.foldl_nil, hstep2]
  have hfinal : (⟨[joinSp (List.replicate 4000 (List.replicate 4 'a'))],
      ([pyTailSlice 800 (joinSp (List.replicate 4000 (List.replicate 4 'a'))),
        List.replicate 4 'a'] ++ List.replicate 998 (List.replicate 4 'a')) ++
          [List.replicate 5 'b'], 5801⟩ : SplitSt).cur ≠ [] := by
    show ([pyTailSlice 800 (joinSp (List.replicate 4000 (List.replicate 4 'a'))),
        List.replicate 4 'a'] ++ List.replicate 998 (List.replicate 4 'a')) ++
          [List.replicate 5 'b'] ≠ []
    intro hcontra
    have hlen0 := congrArg List.length hcontra
    simp only [List.length_append, List.length_cons, List.length_nil,
      List.length_replicate] at hlen0
    omega
  rw [if_neg hfinal]
  rfl

theorem mapStep_okOracle_ok (level : Str) :
    ∀ (chunks acc : List Str) (w : World),
      ∃ ps w2, mapStep okOracle level chunks acc w = (.ok ps, w2) := by
  intro chunks
  induction chunks with
  | nil =>
    intro acc w
    exact ⟨acc, w, rfl⟩
  | cons c cs ih =>
    intro acc w
    obtain ⟨ps, w2, hps⟩ := ih (acc ++ ["ok".toList]) ⟨w.gcalls + 1, w.ecalls⟩
    exact ⟨ps, w2, by
      show mapStep okOracle level cs (acc ++ ["ok".toList]) ⟨w.gcalls + 1, w.ecalls⟩ =
        (.ok ps, w2)
      exact hps⟩

theorem summarizeMapReduce_okOracle_calls (t level : Str) (w : World) :
    (summarizeMapReduce okOracle t level w).2.gcalls =
      w.gcalls + (splitText t 20000 800).length + 1 := by
  obtain ⟨ps, w2, hps⟩ := mapStep_okOracle_ok level (splitText t 20000 800) [] w
  have hc := mapStep_calls okOracle level (splitText t 20000 800) [] w ps w2 hps
  simp only [summarizeMapReduce]
  rw [hps]
  simp only [callGemini]
  omega

/-- C7 (amended): the universally quantified scenario fails (see the
counterexample), but for a representative 25,000-character text of
whitespace-separated words — 4999 four-character words and one
five-character word, single-spaced — `_split_text` with max 20000 and
overlap 800 yields exactly 2 chunks, and `summarize_map_reduce` (with an
oracle that answers every request) performs exactly 3 oracle calls. -/
theorem C7_two_chunks_three_calls :
    doc25000.length = 25000 ∧
      (splitText doc25000 20000 800).length = 2 ∧
      (summarizeMapReduce okOracle doc25000 "LOW".toList ⟨0, 0⟩).2.gcalls = 3 := by
  refine ⟨doc25000_length, splitText_doc25000_length, ?_⟩
  rw [summarizeMapReduce_okOracle_calls, splitText_doc25000_length]

-- ### `chat_answer` and the `app.py` handlers

/-- One conversation turn: `{"role": "user"|"model", "text": ...}`. -/
structure Turn where
  role : Str
  text : Str
  deriving DecidableEq

/-- `CHAT_PROMPT` from `prompts.py`, split at its `context` hole. -/
def CHAT_PROMPT_pre : Str :=
  ("You are a helpful research assistant.\nGround your answers ONLY in the provided paper text. If you are uncertain, say you are unsure.\nCite specific sections/ideas from the context when possible (no external links).\n\nReturn ONLY valid HTML.\nUse <h2> for section titles, <p> for paragraphs, and <ul><li> for lists.\nFor emphasis use <strong> (bold) and <em> (italic) — DO NOT use ** or *.\nDo not include Markdown, code fences, or any text outside HTML.\n\nCONTEXT (paper excerpt):\n").toList

def CHAT_PROMPT_post : Str := "\n\nNow continue the conversation.\n".toList

/-- `CHAT_PROMPT.format(context=context)`. -/
def chatPrompt (context : Str) : Str := CHAT_PROMPT_pre ++ context ++ CHAT_PROMPT_post

/-- `chat_answer(doc_text, history)` from `llm.py`, lines 99-117: trim the
document to 60000 characters, put the grounding instruction first, then the
whole history, and make one oracle call. -/
def chatAnswer (orc : Oracle) (w : World) (doc_text : Str) (history : List Turn) :
    Except Str Str × World :=
  let context := doc_text.take 60000
  let contents := (⟨roleUser, chatPrompt context⟩ : Content) ::
    history.map (fun t => (⟨t.role, t.text⟩ : Content))
  callGemini orc w contents

/-- One `DOC_CACHE` entry: `{"text": ..., "summaries": {level: html}}`;
the summaries dict is an association list updated by shadowing cons. -/
structure DocEntry where
  text : Str
  summaries : List (Str × Str)
  deriving DecidableEq

/-- The module-level mutable state of `app.py`: `DOC_CACHE` (url-keyed) and
`CHAT_HISTORY` (keyed by the pair (sid, url)). -/
structure AppState where
  doc : List (Str × DocEntry)
  chat : List ((Str × Str) × List Turn)
  deriving DecidableEq

/-- Status code plus success payload (summary or chat answer) of a handled
request. -/
structure Resp where
  status : Nat
  payload : Option Str
  deriving DecidableEq

/-- Python `s.strip()`. -/
def pyStrip (s : Str) : Str :=
  ((s.dropWhile isSpace).reverse.dropWhile isSpace).reverse

/-- Python `s.upper()`. -/
def pyUpper (s : Str) : Str := s.map Char.toUpper

def VALID_LEVELS : List Str := ["LOW".toList, "MEDIUM".toList, "HIGH".toList]

/-- `level = (form.get("complexity") or "LOW").strip().upper()` followed by
the `VALID_LEVELS` check (`app.py`, lines 115-117). -/
def normLevel (raw : Str) : Str :=
  let l := pyUpper (pyStrip raw)
  if l ∈ VALID_LEVELS then l else "LOW".toList

/-- `url.startswith("http://") or url.startswith("https://")`. -/
def urlOk (url : Str) : Bool :=
  "http://".toList.isPrefixOf url || "https://".toList.isPrefixOf url

/-- `extract_text_from_url` as an external collaborator: `ext` maps a URL
to extracted text or an extraction error; the call is counted. -/
def extractCall (ext : Str → Except Str Str) (w : World) (url : Str) :
    Except Str Str × World :=
  (ext url, { w with ecalls := w.ecalls + 1 })

/-- `CHAT_HISTORY.setdefault(key, [])` (`app.py`, lines 134-135 and 156). -/
def chatSetDefault (chat : List ((Str × Str) × List Turn)) (key : Str × Str) :
    List ((Str × Str) × List Turn) :=
  match chat.lookup key with
  | some _ => chat
  | none => (key, []) :: chat

/-- The summary part of the `/summarize` branch (`app.py`, lines 128-137):
the document is cached; compute or reuse the per-level summary, then make
sure the chat-history slot exists and answer 200. A missing cache entry
would be a `KeyError`, caught by the surrounding `except` as a 500. -/
def summarizeStage (orc : Oracle) (st : AppState) (w : World)
    (sid url level : Str) : AppState × World × Resp :=
  match st.doc.lookup url with
  | none => (st, w, ⟨500, none⟩)
  | some entry =>
    match entry.summaries.lookup level with
    | some summary =>
      ({ st with chat := chatSetDefault st.chat (sid, url) }, w, ⟨200, some summary⟩)
    | none =>
      match summarizeMapReduce orc entry.text level w with
      | (.error e, w1) => (st, w1, ⟨500, none⟩)
      | (.ok summary, w1) =>
        ({ st with
            doc := (url, { entry with
              summaries := (level, summary) :: entry.summaries }) :: st.doc,
            chat := chatSetDefault st.chat (sid, url) }, w1, ⟨200, some summary⟩)

/-- The `POST /summarize` branch of `lambda_handler` (`app.py`,
lines 111-140): validate the URL, extract and cache the text on a cache
miss (rejecting extractions under 200 stripped characters), then build or
reuse the summary. Collaborator exceptions become 500 responses. -/
def handleSummarize (ext : Str → Except Str Str) (orc : Oracle)
    (st : AppState) (w : World) (sid urlRaw levelRaw : Str) :
    AppState × World × Resp :=
  let url := pyStrip urlRaw
  let level := normLevel levelRaw
  if urlOk url = false then (st, w, ⟨400, none⟩)
  else
    match st.doc.lookup url with
    | some _ => summarizeStage orc st w sid url level
    | none =>
      match extractCall ext w url with
      | (.error e, w1) => (st, w1, ⟨500, none⟩)
      | (.ok text, w1) =>
        if text = [] ∨ (pyStrip text).length < 200 then (st, w1, ⟨400, none⟩)
        else
          summarizeStage orc { st with doc := (url, ⟨text, []⟩) :: st.doc } w1
            sid url level

/-- The conversation history the handler would see for a key
(`setdefault` semantics: a missing key reads as the empty history). -/
def histOf (st : AppState) (key : Str × Str) : List Turn :=
  (st.chat.lookup key).getD []

/-- The `POST /chat` branch of `lambda_handler` (`app.py`, lines 143-164):
validate, require a cached document, append the user turn, call the
oracle; on success append the model turn, on failure pop the user turn. -/
def handleChat (orc : Oracle) (st : AppState) (w : World)
    (sid urlRaw msgRaw : Str) : AppState × World × Resp :=
  let url := pyStrip urlRaw
  let message := pyStrip msgRaw
  if url = [] ∨ message = [] then (st, w, ⟨400, none⟩)
  else
    match st.doc.lookup url with
    | none => (st, w, ⟨400, none⟩)
    | some entry =>
      let key := (sid, url)
      let hist := (st.chat.lookup key).getD []
      let hist1 := hist ++ [⟨roleUser, message⟩]
      match chatAnswer orc w entry.text hist1 with
      | (.ok answer, w1) =>
        ({ st with chat := (key, hist1 ++ [⟨roleModel, answer⟩]) :: st.chat }, w1,
          ⟨200, some answer⟩)
      | (.error e, w1) =>
        ({ st with chat := (key, hist1.dropLast) :: st.chat }, w1, ⟨500, none⟩)

-- ### C3 / C4: rollback of the user turn on a failed chat exchange

theorem dropLast_concat_turn (l : List Turn) (a : Turn) : (l ++ [a]).dropLast = l := by
  simp

theorem lookup_cons_self {β : Type} (k : Str × Str) (v : β)
    (l : List ((Str × Str) × β)) : ((k, v) :: l).lookup k = some v := by
  simp [List.lookup]

theorem handleChat_error_histOf (orc : Oracle) (st : AppState) (w : World)
    (sid urlRaw msgRaw : Str) (entry : DocEntry) (e : Str)
    (hdoc : st.doc.lookup (pyStrip urlRaw) = some entry)
    (hurl : pyStrip urlRaw ≠ []) (hmsg : pyStrip msgRaw ≠ [])
    (horc : (chatAnswer orc w entry.text
      (histOf st (sid, pyStrip urlRaw) ++ [⟨roleUser, pyStrip msgRaw⟩])).1 = .error e) :
    histOf (handleChat orc st w sid urlRaw msgRaw).1 (sid, pyStrip urlRaw) =
      histOf st (sid, pyStrip urlRaw) := by
  have hne : ¬ (pyStrip urlRaw = [] ∨ pyStrip msgRaw = []) := by
    push_neg
    exact ⟨hurl, hmsg⟩
  simp only [handleChat]
  rw [if_neg hne]
  simp only [hdoc]
  cases hca : chatAnswer orc w entry.text
      ((st.chat.lookup (sid, pyStrip urlRaw)).getD [] ++
        [⟨roleUser, pyStrip msgRaw⟩]) with
  | mk r w1 =>
    cases r with
    | ok answer =>
      exfalso
      have hok : (chatAnswer orc w entry.text
          (histOf st (sid, pyStrip urlRaw) ++ [⟨roleUser, pyStrip msgRaw⟩])).1 =
            .ok answer := by
        rw [show histOf st (sid, pyStrip urlRaw) =
          (st.chat.lookup (sid, pyStrip urlRaw)).getD [] from rfl, hca]
      rw [hok] at horc
      exact Except.noConfusion horc
    | error e1 =>
      dsimp only
      simp only [histOf]
      rw [lookup_cons_self]
      simp only [Option.getD_some]
      rw [dropLast_concat_turn]

/-- C3: when the oracle call of a `/chat` request raises, the conversation
history for that (session, document) key after the request equals the
history before it: the just-appended user turn is rolled back, so history
grows only on successful exchanges. -/
theorem C3_chat_failure_rollback (orc : Oracle) (st : AppState) (w : World)
    (sid urlRaw msgRaw : Str) (entry : DocEntry) (e : Str)
    (hdoc : st.doc.lookup (pyStrip urlRaw) = some entry)
    (hurl : pyStrip urlRaw ≠ []) (hmsg : pyStrip msgRaw ≠ [])
    (horc : (chatAnswer orc w entry.text
      (histOf st (sid, pyStrip urlRaw) ++ [⟨roleUser, pyStrip msgRaw⟩])).1 = .error e) :
    histOf (handleChat orc st w sid urlRaw msgRaw).1 (sid, pyStrip urlRaw) =
      histOf st (sid, pyStrip urlRaw) :=
  handleChat_error_histOf orc st w sid urlRaw msgRaw entry e hdoc hurl hmsg horc

def cexUrl : Str := "http://x".toList
def cexSid : Str := "s".toList
def cexDoc : DocEntry := ⟨"doctext".toList, []⟩
def cexHist4 : List Turn :=
  [⟨roleUser, "q1".toList⟩, ⟨roleModel, "a1".toList⟩,
   ⟨roleUser, "q2".toList⟩, ⟨roleModel, "a2".toList⟩]
def cexState : AppState := ⟨[(cexUrl, cexDoc)], [((cexSid, cexUrl), cexHist4)]⟩
def errOracle : Oracle := fun _ _ => .error "boom".toList

theorem C3_chat_failure_rollback_witness :
    (cexState.doc.lookup (pyStrip cexUrl) = some cexDoc ∧
      pyStrip cexUrl ≠ [] ∧ pyStrip "hello".toList ≠ [] ∧
      (chatAnswer errOracle ⟨0, 0⟩ cexDoc.text
        (histOf cexState (cexSid, pyStrip cexUrl) ++
          [⟨roleUser, pyStrip "hello".toList⟩])).1 = .error "boom".toList) ∧
    histOf (handleChat errOracle cexState ⟨0, 0⟩ cexSid cexUrl "hello".toList).1
        (cexSid, pyStrip cexUrl) =
      histOf cexState (cexSid, pyStrip cexUrl) :=
  ⟨⟨by decide, by decide, by decide, rfl⟩,
    C3_chat_failure_rollback errOracle cexState ⟨0, 0⟩ cexSid cexUrl "hello".toList
      cexDoc "boom".toList (by decide) (by decide) (by decide) rfl⟩

/-- C4 as stated is false: with a history of 4 prior turns and a failing
oracle call, the resulting history has length 4, not 5 — the handler pops
the just-appended user turn. -/
theorem C4_counterexample :
    (histOf (handleChat errOracle cexState ⟨0, 0⟩ cexSid cexUrl "hello".toList).1
        (cexSid, cexUrl)).length = 4 ∧
      ¬ ((histOf (handleChat errOracle cexState ⟨0, 0⟩ cexSid cexUrl
          "hello".toList).1 (cexSid, cexUrl)).length = 5) := by
  constructor
  · decide
  · decide

/-- C4 (amended): for a chat request arriving with 4 prior turns whose
oracle call raises, the resulting history has length 4: the appended user
turn is rolled back and the model turn is never appended. -/
theorem C4_failed_chat_history_length (orc : Oracle) (st : AppState) (w : World)
    (sid urlRaw msgRaw : Str) (entry : DocEntry) (e : Str)
    (hdoc : st.doc.lookup (pyStrip urlRaw) = some entry)
    (hurl : pyStrip urlRaw ≠ []) (hmsg : pyStrip msgRaw ≠ [])
    (horc : (chatAnswer orc w entry.text
      (histOf st (sid, pyStrip urlRaw) ++ [⟨roleUser, pyStrip msgRaw⟩])).1 = .error e)
    (h4 : (histOf st (sid, pyStrip urlRaw)).length = 4) :
    (histOf (handleChat orc st w sid urlRaw msgRaw).1 (sid, pyStrip urlRaw)).length = 4 := by
  rw [handleChat_error_histOf orc st w sid urlRaw msgRaw entry e hdoc hurl hmsg horc]
  exact h4

theorem C4_failed_chat_history_length_witness :
    (cexState.doc.lookup (pyStrip cexUrl) = some cexDoc ∧
      pyStrip cexUrl ≠ [] ∧ pyStrip "hello".toList ≠ [] ∧
      (chatAnswer errOracle ⟨0, 0⟩ cexDoc.text
        (histOf cexState (cexSid, pyStrip cexUrl) ++
          [⟨roleUser, pyStrip "hello".toList⟩])).1 = .error "boom".toList ∧
      (histOf cexState (cexSid, pyStrip cexUrl)).length = 4) ∧
    (histOf (handleChat errOracle cexState ⟨0, 0⟩ cexSid cexUrl "hello".toList).1
      (cexSid, pyStrip cexUrl)).length = 4 :=
  ⟨⟨by decide, by decide, by decide, rfl, by decide⟩,
    C4_failed_chat_history_length errOracle cexState ⟨0, 0⟩ cexSid cexUrl
      "hello".toList cexDoc "boom".toList (by decide) (by decide) (by decide) rfl
      (by decide)⟩

-- ### C8: warm cache means no further collaborator calls

theorem urlOk_true_of_not_false (u : Str) (h : ¬ urlOk u = false) :
    urlOk u = true := by
  cases hu : urlOk u
  · exact absurd hu h
  · rfl

theorem lookup_cons_self_gen {α β : Type} [BEq α] [LawfulBEq α] (k : α) (v : β)
    (l : List (α × β)) : ((k, v) :: l).lookup k = some v := by
  simp [List.lookup]

/-- A 200-response from `/summarize` means the URL was valid and the final
state caches the served summary under (url, level). -/
theorem handleSummarize_success_cached (ext : Str → Except Str Str) (orc : Oracle)
    (st : AppState) (w : World) (sid urlRaw levelRaw : Str)
    (st1 : AppState) (w1 : World) (r1 : Resp)
    (h1 : handleSummarize ext orc st w sid urlRaw levelRaw = (st1, w1, r1))
    (h200 : r1.status = 200) :
    urlOk (pyStrip urlRaw) = true ∧
      ∃ entry s, st1.doc.lookup (pyStrip urlRaw) = some entry ∧
        entry.summaries.lookup (normLevel levelRaw) = some s ∧ r1.payload = some s := by
  have hfail : ∀ (a : AppState) (b : World) (n : Nat) (p : Option Str),
      n ≠ 200 → (a, b, (⟨n, p⟩ : Resp)) = (st1, w1, r1) → False := by
    intro a b n p hn heq
    have hs := congrArg (fun q => q.2.2.status) heq
    simp only at hs
    omega
  simp only [handleSummarize, summarizeStage, extractCall] at h1
  by_cases hurl : urlOk (pyStrip urlRaw) = false
  · rw [if_pos hurl] at h1
    exact absurd h1 (fun h => hfail _ _ _ _ (by omega) h)
  · rw [if_neg hurl] at h1
    refine ⟨urlOk_true_of_not_false _ hurl, ?_⟩
    cases hlk : st.doc.lookup (pyStrip urlRaw) with
    | some entry0 =>
      rw [hlk] at h1
      simp only at h1
      cases hsum : entry0.summaries.lookup (normLevel levelRaw) with
      | some s =>
        rw [hsum] at h1
        simp only at h1
        have hst := congrArg (fun p => p.1.doc) h1
        have hr := congrArg (fun p => p.2.2) h1
        simp only at hst hr
        refine ⟨entry0, s, ?_, hsum, ?_⟩
        · rw [← hst]
          exact hlk
        · rw [← hr]
      | none =>
        rw [hsum] at h1
        simp only at h1
        split at h1
        · exact absurd h1 (fun h => hfail _ _ _ _ (by omega) h)
        next s w2 hmr =>
          have hst := congrArg (fun p => p.1.doc) h1
          have hr := congrArg (fun p => p.2.2) h1
          simp only at hst hr
          refine ⟨⟨entry0.text, (normLevel levelRaw, s) :: entry0.summaries⟩, s, ?_, ?_, ?_⟩
          · rw [← hst]
            exact lookup_cons_self_gen _ _ _
          · exact lookup_cons_self_gen _ _ _
          · rw [← hr]
    | none =>
      rw [hlk] at h1
      simp only at h1
      cases hext : ext (pyStrip urlRaw) with
      | error e =>
        rw [hext] at h1
        simp only at h1
        exact absurd h1 (fun h => hfail _ _ _ _ (by omega) h)
      | ok text =>
        rw [hext] at h1
        simp only at h1
        by_cases htext : (text = [] ∨ (pyStrip text).length < 200)
        · rw [if_pos htext] at h1
          exact absurd h1 (fun h => hfail _ _ _ _ (by omega) h)
        · rw [if_neg htext] at h1
          rw [lookup_cons_self_gen (pyStrip urlRaw) (⟨text, []⟩ : DocEntry) st.doc] at h1
          simp only at h1
          rw [List.lookup_nil] at h1
          simp only at h1
          split at h1
          · exact absurd h1 (fun h => hfail _ _ _ _ (by omega) h)
          next s w2 hmr =>
            have hst := congrArg (fun p => p.1.doc) h1
            have hr := congrArg (fun p => p.2.2) h1
            simp only at hst hr
            refine ⟨⟨text, [(normLevel levelRaw, s)]⟩, s, ?_, ?_, ?_⟩
            · rw [← hst]
              exact lookup_cons_self_gen _ _ _
            · exact lookup_cons_self_gen _ _ _
            · rw [← hr]

/-- With the document and the level summary both cached, `/summarize` only
reads the cache: state and counters are untouched apart from the
`setdefault` of the chat slot, and the cached summary is served. -/
theorem handleSummarize_cached_fast (ext : Str → Except Str Str) (orc : Oracle)
    (st : AppState) (w : World) (sid urlRaw levelRaw : Str)
    (entry : DocEntry) (s : Str)
    (hurlT : urlOk (pyStrip urlRaw) = true)
    (hlk : st.doc.lookup (pyStrip urlRaw) = some entry)
    (hsum : entry.summaries.lookup (normLevel levelRaw) = some s) :
    handleSummarize ext orc st w sid urlRaw levelRaw =
      ({ st with chat := chatSetDefault st.chat (sid, pyStrip urlRaw) }, w,
        ⟨200, some s⟩) := by
  simp only [handleSummarize, summarizeStage]
  rw [if_neg (by simp [hurlT])]
  rw [hlk]
  simp only
  rw [hsum]

/-- C8: after a first `/summarize` request for (url, L) succeeds with a
valid level L, a second identical request against the warm cache performs
zero additional oracle calls and zero additional text extractions, and
returns the same (cached) summary. -/
theorem C8_second_request_no_calls (ext : Str → Except Str Str) (orc : Oracle)
    (st : AppState) (w : World) (sid urlRaw L : Str)
    (st1 : AppState) (w1 : World) (r1 : Resp)
    (hL : L ∈ VALID_LEVELS)
    (h1 : handleSummarize ext orc st w sid urlRaw L = (st1, w1, r1))
    (h200 : r1.status = 200) :
    (handleSummarize ext orc st1 w1 sid urlRaw L).2.1 = w1 ∧
      (handleSummarize ext orc st1 w1 sid urlRaw L).2.2 = ⟨200, r1.payload⟩ := by
  obtain ⟨hurlT, entry, s, hlk, hsum, hpay⟩ :=
    handleSummarize_success_cached ext orc st w sid urlRaw L st1 w1 r1 h1 h200
  rw [handleSummarize_cached_fast ext orc st1 w1 sid urlRaw L entry s hurlT hlk hsum]
  exact ⟨rfl, by rw [hpay]⟩

def ext300 : Str → Except Str Str := fun _ => .ok (List.replicate 300 'a')

def st1c : AppState :=
  ⟨[(cexUrl, ⟨List.replicate 300 'a', [("LOW".toList, "ok".toList)]⟩),
    (cexUrl, ⟨List.replicate 300 'a', []⟩)],
   [((cexSid, cexUrl), [])]⟩

set_option maxRecDepth 8000 in
theorem C8_second_request_no_calls_witness :
    ("LOW".toList ∈ VALID_LEVELS ∧
      handleSummarize ext300 okOracle ⟨[], []⟩ ⟨0, 0⟩ cexSid cexUrl "LOW".toList =
        (st1c, ⟨2, 1⟩, ⟨200, some "ok".toList⟩) ∧
      (⟨200, some "ok".toList⟩ : Resp).status = 200) ∧
    ((handleSummarize ext300 okOracle st1c ⟨2, 1⟩ cexSid cexUrl "LOW".toList).2.1 =
        (⟨2, 1⟩ : World) ∧
      (handleSummarize ext300 okOracle st1c ⟨2, 1⟩ cexSid cexUrl "LOW".toList).2.2 =
        ⟨200, (⟨200, some "ok".toList⟩ : Resp).payload⟩) :=
  ⟨⟨by decide, rfl, rfl⟩,
    C8_second_request_no_calls ext300 okOracle ⟨[], []⟩ ⟨0, 0⟩ cexSid cexUrl
      "LOW".toList st1c ⟨2, 1⟩ ⟨200, some "ok".toList⟩ (by decide) rfl rfl⟩

-- ### C10: the chat-history invariant over request sequences

/-- Requests handled by `lambda_handler` that touch `CHAT_HISTORY`. -/
inductive Req
  | summarize (sid url level : Str)
  | chat (sid url message : Str)

def stepReq (ext : Str → Except Str Str) (orc : Oracle) :
    AppState × World → Req → AppState × World
  | (st, w), .summarize sid url level =>
    ((handleSummarize ext orc st w sid url level).1,
      (handleSummarize ext orc st w sid url level).2.1)
  | (st, w), .chat sid url message =>
    ((handleChat orc st w sid url message).1,
      (handleChat orc st w sid url message).2.1)

/-- A sequence of handled requests, starting from a given state. -/
def runReqs (ext : Str → Except Str Str) (orc : Oracle)
    (p : AppState × World) (rs : List Req) : AppState × World :=
  rs.foldl (stepReq ext orc) p

/-- Even length, strict user/model alternation, user first, in pairs. -/
def GoodHist : List Turn → Prop
  | [] => True
  | [_] => False
  | t1 :: t2 :: rest => t1.role = roleUser ∧ t2.role = roleModel ∧ GoodHist rest

instance instDecGoodHist : (h : List Turn) → Decidable (GoodHist h)
  | [] => .isTrue trivial
  | [_] => .isFalse fun h => h
  | t1 :: t2 :: rest =>
    haveI : Decidable (GoodHist rest) := instDecGoodHist rest
    inferInstanceAs (Decidable (t1.role = roleUser ∧ t2.role = roleModel ∧ GoodHist rest))

theorem goodHist_append_pair (a b : Str) :
    ∀ h : List Turn, GoodHist h →
      GoodHist (h ++ [⟨roleUser, a⟩, ⟨roleModel, b⟩])
  | [], _ => ⟨rfl, rfl, trivial⟩
  | [_], hh => absurd hh fun h => h
  | _ :: _ :: rest, hh => by
    obtain ⟨h1, h2, h3⟩ := hh
    exact ⟨h1, h2, goodHist_append_pair a b rest h3⟩

/-- Every stored history satisfies the invariant. -/
def AllGood (st : AppState) : Prop :=
  ∀ key h, st.chat.lookup key = some h → GoodHist h

theorem allGood_chatSetDefault (st : AppState) (key : Str × Str) (hA : AllGood st) :
    ∀ k hh, (chatSetDefault st.chat key).lookup k = some hh → GoodHist hh := by
  intro k hh hlk
  unfold chatSetDefault at hlk
  cases hc : st.chat.lookup key with
  | some v =>
    rw [hc] at hlk
    exact hA k hh hlk
  | none =>
    rw [hc] at hlk
    simp only [List.lookup] at hlk
    split at hlk
    · cases hlk
      trivial
    · exact hA k hh hlk

theorem handleSummarize_chat_cases (ext : Str → Except Str Str) (orc : Oracle)
    (st : AppState) (w : World) (sid u l : Str) :
    (handleSummarize ext orc st w sid u l).1.chat = st.chat ∨
      (handleSummarize ext orc st w sid u l).1.chat =
        chatSetDefault st.chat (sid, pyStrip u) := by
  simp only [handleSummarize, summarizeStage, extractCall]
  by_cases hurl : urlOk (pyStrip u) = false
  · rw [if_pos hurl]
    exact Or.inl rfl
  · rw [if_neg hurl]
    cases hlk : st.doc.lookup (pyStrip u) with
    | some entry0 =>
      dsimp only
      cases hsum : entry0.summaries.lookup (normLevel l) with
      | some s =>
        dsimp only
        exact Or.inr rfl
      | none =>
        dsimp only
        split
        · exact Or.inl rfl
        · exact Or.inr rfl
    | none =>
      dsimp only
      cases hext : ext (pyStrip u) with
      | error e =>
        dsimp only
        exact Or.inl rfl
      | ok text =>
        dsimp only
        by_cases htext : (text = [] ∨ (pyStrip text).length < 200)
        · rw [if_pos htext]
          exact Or.inl rfl
        · rw [if_neg htext]
          rw [lookup_cons_self_gen (pyStrip u) (⟨text, []⟩ : DocEntry) st.doc]
          dsimp only
          rw [List.lookup_nil]
          dsimp only
          split
          · exact Or.inl rfl
          · exact Or.inr rfl

theorem handleSummarize_preserves_allGood (ext : Str → Except Str Str) (orc : Oracle)
    (st : AppState) (w : World) (sid u l : Str) (hA : AllGood st) :
    AllGood (handleSummarize ext orc st w sid u l).1 := by
  intro k hh hlk
  rcases handleSummarize_chat_cases ext orc st w sid u l with hc | hc
  · rw [hc] at hlk
    exact hA k hh hlk
  · rw [hc] at hlk
    exact allGood_chatSetDefault st (sid, pyStrip u) hA k hh hlk

theorem handleChat_preserves_allGood (orc : Oracle) (st : AppState) (w : World)
    (sid u m : Str) (hA : AllGood st) :
    AllGood (handleChat orc st w sid u m).1 := by
  intro k hh hlk
  simp only [handleChat] at hlk
  by_cases hne : (pyStrip u = [] ∨ pyStrip m = [])
  · rw [if_pos hne] at hlk
    exact hA k hh hlk
  · rw [if_neg hne] at hlk
    cases hdoc : st.doc.lookup (pyStrip u) with
    | none =>
      rw [hdoc] at hlk
      exact hA k hh hlk
    | some entry =>
      rw [hdoc] at hlk
      simp only at hlk
      have hg : GoodHist ((st.chat.lookup (sid, pyStrip u)).getD []) := by
        cases hh0 : st.chat.lookup (sid, pyStrip u) with
        | none => exact trivial
        | some v => exact hA _ v hh0
      cases hca : chatAnswer orc w entry.text
          ((st.chat.lookup (sid, pyStrip u)).getD [] ++
            [⟨roleUser, pyStrip m⟩]) with
      | mk res w1 =>
        rw [hca] at hlk
        cases res with
        | ok ans =>
          simp only [List.lookup] at hlk
          split at hlk
          · cases hlk
            rw [List.append_assoc]
            exact goodHist_append_pair (pyStrip m) ans _ hg
          · exact hA k hh hlk
        | error e =>
          simp only [List.lookup] at hlk
          split at hlk
          · cases hlk
            rw [dropLast_concat_turn]
            exact hg
          · exact hA k hh hlk

theorem runReqs_preserves_allGood (ext : Str → Except Str Str) (orc : Oracle) :
    ∀ (rs : List Req) (p : AppState × World), AllGood p.1 →
      AllGood (runReqs ext orc p rs).1 := by
  intro rs
  induction rs with
  | nil =>
    intro p h
    exact h
  | cons r rs ih =>
    intro p h
    rw [runReqs, List.foldl_cons]
    refine ih (stepReq ext orc p r) ?_
    cases p with
    | mk st w =>
      cases r with
      | summarize sid url level =>
        exact handleSummarize_preserves_allGood ext orc st w sid url level h
      | chat sid url message =>
        exact handleChat_preserves_allGood orc st w sid url message h

/-- C10: starting from the empty caches, after any sequence of handled
`/summarize` and `/chat` requests every stored `CHAT_HISTORY` list has even
length and strictly alternates roles in (user, model) pairs: a chat request
appends exactly the pair on success or leaves the history unchanged on
failure, and summarize only creates empty histories. -/
theorem C10_chat_history_pairs (ext : Str → Except Str Str) (orc : Oracle)
    (rs : List Req) (key : Str × Str) (h : List Turn)
    (hlk : ((runReqs ext orc (⟨[], []⟩, ⟨0, 0⟩) rs).1.chat.lookup key) = some h) :
    GoodHist h := by
  refine runReqs_preserves_allGood ext orc rs (⟨[], []⟩, ⟨0, 0⟩) ?_ key h hlk
  intro k hh hk
  rw [List.lookup_nil] at hk
  exact Option.noConfusion hk

set_option maxRecDepth 8000 in
theorem C10_chat_history_pairs_witness :
    ((runReqs ext300 okOracle (⟨[], []⟩, ⟨0, 0⟩)
        [Req.summarize cexSid cexUrl "LOW".toList]).1.chat.lookup
          (cexSid, cexUrl) = some [] ∧ True) ∧
      GoodHist [] :=
  ⟨⟨rfl, trivial⟩,
    C10_chat_history_pairs ext300 okOracle [Req.summarize cexSid cexUrl "LOW".toList]
      (cexSid, cexUrl) [] rfl⟩

-- ### C9: storage failure in the chat lambda

/-- `if history and history[-1]["role"] == "user": history.pop()`
(`chat_with_paper/lambda_function.py`, lines 222-223). -/
def popIfUser (h : List Turn) : List Turn :=
  match h.getLast? with
  | some t => if t.role = roleUser then h.dropLast else h
  | none => h

/-- The exchange part of the chat lambda `handler`
(`chat_with_paper/lambda_function.py`, lines 193-229): append the user
turn, generate the answer, append the model turn, then persist with
`save_chat_history` — all inside one `try` whose `except` pops a trailing
user turn and answers 500. `save` is the storage collaborator; an
exception it raises is caught by that same `except`. -/
def chatLambdaExchange (orc : Oracle) (w : World)
    (save : List Turn → Except Str Unit) (doc_text : Str)
    (hist : List Turn) (message : Str) : List Turn × World × Resp :=
  let hist1 := hist ++ [⟨roleUser, message⟩]
  match chatAnswer orc w doc_text hist1 with
  | (.error e, w1) => (popIfUser hist1, w1, ⟨500, none⟩)
  | (.ok answer, w1) =>
    let hist2 := hist1 ++ [⟨roleModel, answer⟩]
    match save hist2 with
    | .error e => (popIfUser hist2, w1, ⟨500, none⟩)
    | .ok _ => (hist2, w1, ⟨200, some answer⟩)

def failSave : List Turn → Except Str Unit := fun _ => .error "disk full".toList

/-- C9 fails on the chat lambda: with an oracle call that succeeds and a
`save_chat_history` that raises, the handler returns a 500 error response
to the user even though the primary operation (the answer) succeeded. -/
theorem C9_storage_failure_fatal :
    (chatAnswer okOracle ⟨0, 0⟩ "doc".toList
        ([] ++ [⟨roleUser, "hi".toList⟩])).1 = .ok "ok".toList ∧
      (chatLambdaExchange okOracle ⟨0, 0⟩ failSave "doc".toList [] "hi".toList).2.2 =
        ⟨500, none⟩ :=
  ⟨rfl, rfl⟩
